import Mathlib

/-!
Verification of the max-flow core of `app.py`: the `Graph` class
(capacity store built by `add_edge`), the BFS augmenting-path search
`bfs_path_exists`, the Ford–Fulkerson driver `ford_fulkerson_max_flow`,
the verifier `verify_maximum_flow` and the `/api/verify` route
`verify_flow`.

The Python dictionaries `graph` (capacities) and `flow` default missing
entries to 0; `graph[u]`'s key set is exactly the set of heads `v` of
`add_edge(u, v, _)` calls, in insertion order, and the BFS iterates over
that key set only.  Capacities and flows are integers.  The two `while`
loops of the engine are rendered with an explicit fuel and return
`none` when the fuel runs out; the chosen fuels are proved sufficient.
-/

namespace App

/-- A flow assignment: `flow[u][v]` with missing entries read as 0. -/
abbrev Flw := Nat → Nat → Int

/-- The capacity side of the Python `Graph` object: vertex count `V`,
the outer key list of the `graph` dict (`outer`, insertion order), the
inner key list of `graph[u]` (`adj u`, insertion order), the accumulated
capacities (`cap`, defaulting to 0), and the list `univ` of every node
mentioned by an `add_edge` call (used to size the BFS fuel). -/
structure Graph where
  V : Nat
  outer : List Nat
  adj : Nat → List Nat
  cap : Nat → Nat → Int
  univ : List Nat

/-- `Graph(vertices)`: empty capacity dictionaries. -/
def mkGraph (V : Nat) : Graph :=
  ⟨V, [], fun _ => [], fun _ _ => 0, []⟩

/-- Append `x` to a key list unless already present (dict key creation). -/
def insertNew (l : List Nat) (x : Nat) : List Nat :=
  if x ∈ l then l else l ++ [x]

/-- `add_edge(u, v, capacity)`: `graph[u][v] += capacity`. -/
def add_edge (g : Graph) (u v : Nat) (c : Int) : Graph :=
  { V := g.V
    outer := insertNew g.outer u
    adj := fun x => if x = u then insertNew (g.adj u) v else g.adj x
    cap := fun x y => if x = u ∧ y = v then g.cap x y + c else g.cap x y
    univ := insertNew (insertNew g.univ u) v }

/-- Build a graph from an edge list, as the route does (lines 244-246). -/
def buildGraph (V : Nat) (edges : List (Nat × Nat × Int)) : Graph :=
  edges.foldl (fun g e => add_edge g e.1 e.2.1 e.2.2) (mkGraph V)

/-- `parent[v]` lookup in the parent pointer map (association list,
keys are the children). -/
def lookupPar : List (Nat × Nat) → Nat → Option Nat
  | [], _ => none
  | (a, b) :: rest, x => if a = x then some b else lookupPar rest x

/-- The body of BFS's `for v in self.graph[u]` loop: scan the inner key
list of `u`, adding each unvisited `v` with positive residual capacity
to the queue, visited set and parent map, returning `true` the moment
`v == sink` is appended (the remaining neighbours are not scanned). -/
def scanAdj (g : Graph) (f : Flw) (u sink : Nat) :
    List Nat → List Nat → List Nat → List (Nat × Nat) →
    Bool × List Nat × List Nat × List (Nat × Nat)
  | [], q, vis, par => (false, q, vis, par)
  | v :: rest, q, vis, par =>
    if v ∉ vis ∧ g.cap u v - f u v > 0 then
      if v = sink then (true, q ++ [v], vis ++ [v], par ++ [(v, u)])
      else scanAdj g f u sink rest (q ++ [v]) (vis ++ [v]) (par ++ [(v, u)])
    else scanAdj g f u sink rest q vis par

/-- The BFS `while queue:` loop, with fuel counting dequeue steps.
Returns `(reached_sink, visited, parent)`; `none` = out of fuel. -/
def bfsLoop (g : Graph) (f : Flw) (sink : Nat) :
    Nat → List Nat → List Nat → List (Nat × Nat) →
    Option (Bool × List Nat × List (Nat × Nat))
  | 0, _, _, _ => none
  | Nat.succ fuel, q, vis, par =>
    match q with
    | [] => some (false, vis, par)
    | u :: qs =>
      match scanAdj g f u sink (g.adj u) qs vis par with
      | (true, _, vis', par') => some (true, vis', par')
      | (false, q', q'vis, q'par) => bfsLoop g f sink fuel q' q'vis q'par

/-- Fuel sufficient for the BFS loop (proved below). -/
def bfsFuel (g : Graph) : Nat := g.univ.length + 2

/-- `bfs_path_exists(source, sink, parent)`: BFS from `source` over the
residual graph, `visited = {source}`, `queue = [source]`, `parent = {}`. -/
def bfs_path_exists (g : Graph) (f : Flw) (source sink : Nat) :
    Option (Bool × List Nat × List (Nat × Nat)) :=
  bfsLoop g f sink (bfsFuel g) [source] [source] []

/-- The path reconstruction `while s != source: s = parent[s]`, emitting
the arcs `(parent[s], s)` in the order the Python loops visit them
(sink end first).  `none` = missing parent entry or out of fuel. -/
def walkPath (par : List (Nat × Nat)) (source : Nat) :
    Nat → Nat → Option (List (Nat × Nat))
  | 0, _ => none
  | Nat.succ fuel, x =>
    if x = source then some []
    else
      match lookupPar par x with
      | none => none
      | some u =>
        match walkPath par source fuel u with
        | none => none
        | some rest => some ((u, x) :: rest)

/-- Residual capacity of an arc: `graph[u][v] - flow[u][v]`. -/
def resid (g : Graph) (f : Flw) (a : Nat × Nat) : Int :=
  g.cap a.1 a.2 - f a.1 a.2

/-- `path_flow`: the minimum residual capacity along the path (the
Python `min` fold starting from `float('inf')`; on the nonempty arc
lists the engine produces this is the minimum of the arcs' residuals). -/
def bottleneck (g : Graph) (f : Flw) : List (Nat × Nat) → Int
  | [] => 0
  | a :: rest => rest.foldl (fun m b => min m (resid g f b)) (resid g f a)

/-- Pointwise additive update of one flow entry. -/
def addAt (f : Flw) (a b : Nat) (d : Int) : Flw :=
  fun x y => if x = a ∧ y = b then f x y + d else f x y

/-- `flow[u][v] += pf; flow[v][u] -= pf`. -/
def pushArc (f : Flw) (u v : Nat) (pf : Int) : Flw :=
  addAt (addAt f u v pf) v u (-pf)

/-- Push `pf` along every arc of the path. -/
def augment (f : Flw) (arcs : List (Nat × Nat)) (pf : Int) : Flw :=
  arcs.foldl (fun fc a => pushArc fc a.1 a.2 pf) f

/-- One iteration of the `while self.bfs_path_exists(...)` loop:
`some none` = BFS failed, terminate; `some (some (f', pf))` = augmented
by `pf`; `none` = internal fuel exhausted. -/
def ffIter (g : Graph) (source sink : Nat) (f : Flw) :
    Option (Option (Flw × Int)) :=
  match bfs_path_exists g f source sink with
  | none => none
  | some (false, _, _) => some none
  | some (true, vis, par) =>
    match walkPath par source vis.length sink with
    | none => none
    | some arcs =>
      let pf := bottleneck g f arcs
      some (some (augment f arcs pf, pf))

/-- The augmenting loop with fuel counting augmentations. -/
def ffLoop (g : Graph) (source sink : Nat) :
    Nat → Flw → Int → Option (Int × Flw)
  | 0, _, _ => none
  | Nat.succ fuel, f, tot =>
    match ffIter g source sink f with
    | none => none
    | some none => some (tot, f)
    | some (some (f', pf)) => ffLoop g source sink fuel f' (tot + pf)

/-- Fuel sufficient for the augmenting loop (proved below): one more
than the sum of the non-negative parts of the source row's capacities. -/
def loopFuel (g : Graph) (source : Nat) : Nat :=
  (((g.adj source).map (fun v => max (g.cap source v) 0)).sum).toNat + 1

/-- `ford_fulkerson_max_flow(source, sink)`: run the augmenting loop
from the all-zero flow; returns the total and the final flow matrix. -/
def ford_fulkerson_max_flow (g : Graph) (source sink : Nat) :
    Option (Int × Flw) :=
  ffLoop g source sink (loopFuel g source) (fun _ _ => 0) 0

/-- The nested user-flow dictionary `user_flow[u][v]`. -/
abbrev UF := List (Nat × List (Nat × Int))

/-- Inner dict lookup. -/
def lookupI : List (Nat × Int) → Nat → Option Int
  | [], _ => none
  | (a, b) :: rest, x => if a = x then some b else lookupI rest x

/-- `user_flow[u]` (a defaultdict: missing outer key reads as empty). -/
def ufInner : UF → Nat → List (Nat × Int)
  | [], _ => []
  | (a, inner) :: rest, u => if a = u then inner else ufInner rest u

/-- `user_flow[u].get(v, 0)`-style read. -/
def ufGet (uf : UF) (u v : Nat) : Int := (lookupI (ufInner uf u) v).getD 0

/-- Lines 104-110: sum of the positive supplied entries whose tail node
is `source`. -/
def userFlowValue (uf : UF) (source : Nat) : Int :=
  (uf.map (fun p =>
    (p.2.map (fun q => if q.2 > 0 ∧ p.1 = source then q.2 else 0)).sum)).sum

/-- Line 115: `sum(user_flow[u].get(node, 0) for u in user_flow)`. -/
def inflowAt (uf : UF) (node : Nat) : Int :=
  (uf.map (fun p => (lookupI p.2 node).getD 0)).sum

/-- Line 116: `sum(user_flow[node].get(v, 0) for v in range(self.V))`. -/
def outflowAt (uf : UF) (V node : Nat) : Int :=
  ((List.range V).map (fun v => ufGet uf node v)).sum

/-- Lines 113-118: does some node other than source and sink violate
conservation? -/
def consViolated (uf : UF) (V source sink : Nat) : Bool :=
  (List.range V).any (fun node =>
    decide (node ≠ source) && decide (node ≠ sink) &&
      decide (inflowAt uf node ≠ outflowAt uf V node))

/-- Lines 96-99: rebuild the capacity structure on a fresh graph. -/
def copyGraph (g : Graph) : Graph :=
  g.outer.foldl
    (fun h u => (g.adj u).foldl (fun h2 v => add_edge h2 u v (g.cap u v)) h)
    (mkGraph g.V)

/-- `verify_maximum_flow(source, sink, user_flow)`: the returned triple
`(is_valid, user_flow_value, actual_max_flow)`; `none` when the engine
run on the copied graph runs out of fuel. -/
def verify_maximum_flow (g : Graph) (source sink : Nat) (uf : UF) :
    Option (Bool × Int × Int) :=
  match ford_fulkerson_max_flow (copyGraph g) source sink with
  | none => none
  | some (amf, _) =>
    let ufv := userFlowValue uf source
    if consViolated uf g.V source sink then some (false, 0, amf)
    else some (decide (ufv = amf), ufv, amf)

/-- Level data as the `/api/verify` route consumes it. -/
structure Level where
  nodes : Nat
  edges : List (Nat × Nat × Int)
  source : Nat
  sink : Nat

/-- Overwrite one inner entry (`user_flow_dict[u][v] = flow_value`). -/
def setI : List (Nat × Int) → Nat → Int → List (Nat × Int)
  | [], v, c => [(v, c)]
  | (a, b) :: rest, v, c =>
    if a = v then (a, c) :: rest else (a, b) :: setI rest v c

/-- Overwrite one entry of the nested user-flow dictionary. -/
def setUF : UF → Nat → Nat → Int → UF
  | [], u, v, c => [(u, [(v, c)])]
  | (a, inner) :: rest, u, v, c =>
    if a = u then (a, setI inner v c) :: rest
    else (a, inner) :: setUF rest u v c

/-- Lines 249-254: build the nested dict from the flat `(u, v, value)`
records of the request. -/
def buildUF (flows : List (Nat × Nat × Int)) : UF :=
  flows.foldl (fun d e => setUF d e.1 e.2.1 e.2.2) []

/-- The `/api/verify` route (lines 226-267), with the level lookup
collapsed to an `Option`: a missing level is the only rejected input;
otherwise the graph is built from the edge list unconditionally and the
verifier's triple is returned. -/
def verify_flow (level : Option Level) (flows : List (Nat × Nat × Int)) :
    Except String (Option (Bool × Int × Int)) :=
  match level with
  | none => Except.error "Level not found"
  | some L =>
    let g := buildGraph L.nodes L.edges
    let ufd := buildUF flows
    Except.ok (verify_maximum_flow g L.source L.sink ufd)

/-! ### List helpers: first index, unvisited count, key lookups -/

/-- Index of the first occurrence of `x` in `l` (length if absent). -/
def idxOf : List Nat → Nat → Nat
  | [], _ => 0
  | a :: rest, x => if a = x then 0 else idxOf rest x + 1

theorem idxOf_lt_length {l : List Nat} {x : Nat} (h : x ∈ l) :
    idxOf l x < l.length := by
  induction l with
  | nil => cases h
  | cons a rest ih =>
    by_cases hax : a = x
    · simp [idxOf, hax]
    · rcases List.mem_cons.mp h with h1 | h1
      · exact absurd h1.symm hax
      · simpa [idxOf, hax] using ih h1

theorem idxOf_append_left {l : List Nat} {x : Nat} (h : x ∈ l)
    (l2 : List Nat) : idxOf (l ++ l2) x = idxOf l x := by
  induction l with
  | nil => cases h
  | cons a rest ih =>
    by_cases hax : a = x
    · simp [idxOf, hax]
    · rcases List.mem_cons.mp h with h1 | h1
      · exact absurd h1.symm hax
      · simp [idxOf, hax, ih h1]

theorem idxOf_append_self {l : List Nat} {x : Nat} (h : x ∉ l) :
    idxOf (l ++ [x]) x = l.length := by
  induction l with
  | nil => simp [idxOf]
  | cons a rest ih =>
    have hax : a ≠ x := fun he => h (he ▸ List.mem_cons_self a rest)
    have hx : x ∉ rest := fun hm => h (List.mem_cons_of_mem a hm)
    simp [idxOf, hax, ih hx]

/-- Number of nodes of `univ` not yet visited. -/
def unvis (univ vis : List Nat) : Nat :=
  (univ.filter (fun x => decide (x ∉ vis))).length

theorem unvis_le_length (univ vis : List Nat) :
    unvis univ vis ≤ univ.length :=
  List.length_filter_le _ _

theorem unvis_mono {vis vis' : List Nat} (univ : List Nat)
    (h : ∀ x ∈ vis, x ∈ vis') : unvis univ vis' ≤ unvis univ vis := by
  induction univ with
  | nil => simp [unvis]
  | cons a rest ih =>
    by_cases ha : a ∈ vis
    · by_cases ha' : a ∈ vis'
      · simpa [unvis, List.filter_cons, ha, ha'] using ih
      · exact absurd (h a ha) ha'
    · by_cases ha' : a ∈ vis'
      · simp only [unvis, List.filter_cons, ha, ha', not_true_eq_false,
          not_false_eq_true, decide_True, decide_False, if_true, if_false]
        exact Nat.le_succ_of_le ih
      · simpa [unvis, List.filter_cons, ha, ha'] using ih

theorem unvis_lt {univ vis vis' : List Nat} {v : Nat} (hvu : v ∈ univ)
    (hv : v ∉ vis) (hv' : v ∈ vis') (h : ∀ x ∈ vis, x ∈ vis') :
    unvis univ vis' < unvis univ vis := by
  induction univ with
  | nil => cases hvu
  | cons a rest ih =>
    by_cases hav : a = v
    · subst hav
      simp only [unvis, List.filter_cons, hv, hv', not_true_eq_false,
        not_false_eq_true, decide_True, decide_False, if_true, if_false,
        List.length_cons]
      exact Nat.lt_succ_of_le (unvis_mono rest h)
    · have hvrest : v ∈ rest := by
        rcases List.mem_cons.mp hvu with h1 | h1
        · exact absurd h1.symm hav
        · exact h1
      by_cases ha : a ∈ vis
      · have ha' : a ∈ vis' := h a ha
        simpa [unvis, List.filter_cons, ha, ha'] using ih hvrest
      · by_cases ha' : a ∈ vis'
        · simp only [unvis, List.filter_cons, ha, ha', not_true_eq_false,
            not_false_eq_true, decide_True, decide_False, if_true, if_false,
            List.length_cons]
          exact Nat.lt_succ_of_le (Nat.le_of_lt (ih hvrest))
        · simp only [unvis, List.filter_cons, ha, ha', not_false_eq_true,
            decide_True, if_true, List.length_cons]
          exact Nat.succ_lt_succ (ih hvrest)

theorem lookupPar_mem {par : List (Nat × Nat)} {x u : Nat}
    (h : lookupPar par x = some u) : (x, u) ∈ par := by
  induction par with
  | nil => cases h
  | cons p rest ih =>
    obtain ⟨a, b⟩ := p
    by_cases hax : a = x
    · subst hax
      simp only [lookupPar, if_true, eq_self_iff_true, Option.some.injEq,
        if_pos] at h
      subst h
      exact List.mem_cons_self _ _
    · simp only [lookupPar, if_neg hax] at h
      exact List.mem_cons_of_mem _ (ih h)

theorem lookupPar_append_isSome {par rest : List (Nat × Nat)} {x : Nat}
    (h : (lookupPar par x).isSome) :
    (lookupPar (par ++ rest) x).isSome := by
  induction par with
  | nil => simp [lookupPar] at h
  | cons p tl ih =>
    obtain ⟨a, b⟩ := p
    by_cases hax : a = x
    · simp [lookupPar, hax]
    · simp only [lookupPar, if_neg hax] at h
      simpa [lookupPar, hax] using ih h

theorem lookupPar_append_of_none {par rest : List (Nat × Nat)} {x : Nat}
    (h : ∀ p ∈ par, p.1 ≠ x) :
    lookupPar (par ++ rest) x = lookupPar rest x := by
  induction par with
  | nil => rfl
  | cons p tl ih =>
    obtain ⟨a, b⟩ := p
    have hax : a ≠ x := h (a, b) (List.mem_cons_self _ _)
    simpa [lookupPar, hax] using ih (fun q hq => h q (List.mem_cons_of_mem _ hq))

theorem mem_insertNew_of_mem {l : List Nat} {x : Nat} (y : Nat)
    (h : x ∈ l) : x ∈ insertNew l y := by
  unfold insertNew
  split
  · exact h
  · exact List.mem_append_left _ h

theorem mem_insertNew_self (l : List Nat) (x : Nat) : x ∈ insertNew l x := by
  unfold insertNew
  split
  · assumption
  · exact List.mem_append_right _ (List.mem_singleton_self x)

theorem mem_of_mem_insertNew {l : List Nat} {x y : Nat}
    (h : x ∈ insertNew l y) : x ∈ l ∨ x = y := by
  unfold insertNew at h
  split at h
  · exact Or.inl h
  · rcases List.mem_append.mp h with h1 | h1
    · exact Or.inl h1
    · exact Or.inr (List.mem_singleton.mp h1)

/-! ### BFS invariants -/

/-- Every adjacency key is a recorded node (true of every graph built by
`add_edge`; it sizes the BFS fuel). -/
def AdjClosed (g : Graph) : Prop := ∀ a b, b ∈ g.adj a → b ∈ g.univ

/-- The invariant of the BFS state `(visited, parent)`: the source is
visited, every parent entry `(v, u)` records a BFS-traversed arc `u → v`
(both visited, `u` visited strictly earlier, `v` an adjacency key of `u`
with positive residual capacity, `v` never the source), and every
visited node other than the source has a parent entry. -/
structure BfsInv (g : Graph) (f : Flw) (source : Nat) (vis : List Nat)
    (par : List (Nat × Nat)) : Prop where
  src_mem : source ∈ vis
  par_prop : ∀ p ∈ par, p.2 ∈ vis ∧ p.1 ∈ vis ∧
    idxOf vis p.2 < idxOf vis p.1 ∧ p.1 ∈ g.adj p.2 ∧
    0 < g.cap p.2 p.1 - f p.2 p.1 ∧ p.1 ≠ source
  cover : ∀ x ∈ vis, x ≠ source → (lookupPar par x).isSome

theorem BfsInv.init (g : Graph) (f : Flw) (source : Nat) :
    BfsInv g f source [source] [] where
  src_mem := List.mem_singleton_self source
  par_prop := by intro p hp; cases hp
  cover := by
    intro x hx hxs
    exact absurd (List.mem_singleton.mp hx) hxs

theorem BfsInv.step {g : Graph} {f : Flw} {source : Nat}
    {vis : List Nat} {par : List (Nat × Nat)} {u v : Nat}
    (h : BfsInv g f source vis par) (hu : u ∈ vis) (hv : v ∉ vis)
    (hadj : v ∈ g.adj u) (hres : 0 < g.cap u v - f u v) :
    BfsInv g f source (vis ++ [v]) (par ++ [(v, u)]) where
  src_mem := List.mem_append_left _ h.src_mem
  par_prop := by
    intro p hp
    rcases List.mem_append.mp hp with hp1 | hp1
    · obtain ⟨h1, h2, h3, h4, h5, h6⟩ := h.par_prop p hp1
      exact ⟨List.mem_append_left _ h1, List.mem_append_left _ h2,
        by rw [idxOf_append_left h1, idxOf_append_left h2]; exact h3,
        h4, h5, h6⟩
    · have hpe : p = (v, u) := List.mem_singleton.mp hp1
      subst hpe
      refine ⟨List.mem_append_left _ hu, List.mem_append_right _
        (List.mem_singleton_self v), ?_, hadj, hres, ?_⟩
      · rw [idxOf_append_left hu, idxOf_append_self hv]
        exact idxOf_lt_length hu
      · intro hvs
        have hvs' : v = source := hvs
        exact hv (hvs'.symm ▸ h.src_mem)
  cover := by
    intro x hx hxs
    rcases List.mem_append.mp hx with hx1 | hx1
    · exact lookupPar_append_isSome (h.cover x hx1 hxs)
    · have hxv : x = v := List.mem_singleton.mp hx1
      subst hxv
      have hnone : ∀ p ∈ par, p.1 ≠ x := by
        intro p hp hpx
        have := (h.par_prop p hp).2.1
        rw [hpx] at this
        exact hv this
      rw [lookupPar_append_of_none hnone]
      simp [lookupPar]

/-- What one inner `for v in self.graph[u]` scan guarantees: the
invariant is preserved, the visited list only grows (by adjacency keys
of `u`), queue membership stays inside the visited set, a `true` result
means the sink was just visited (and differs from the source), and a
previously visited sink can never produce `true`. -/
theorem scanAdj_invariant (g : Graph) (f : Flw) (u source sink : Nat) :
    ∀ (l q vis : List Nat) (par : List (Nat × Nat))
      (fd : Bool) (q' vis' : List Nat) (par' : List (Nat × Nat)),
      scanAdj g f u sink l q vis par = (fd, q', vis', par') →
      BfsInv g f source vis par → u ∈ vis → (∀ v ∈ l, v ∈ g.adj u) →
      BfsInv g f source vis' par' ∧ (∀ x ∈ vis, x ∈ vis') ∧
        ((∀ x ∈ q, x ∈ vis) → ∀ x ∈ q', x ∈ vis') ∧
        (fd = true → sink ∈ vis' ∧ sink ≠ source) ∧
        (sink ∈ vis → fd = false) := by
  intro l
  induction l with
  | nil =>
    intro q vis par fd q' vis' par' heq hinv _ _
    simp only [scanAdj, Prod.mk.injEq] at heq
    obtain ⟨rfl, rfl, rfl, rfl⟩ := heq
    refine ⟨hinv, fun x hx => hx, fun hq => hq, ?_, fun _ => rfl⟩
    intro h
    cases h
  | cons v rest ih =>
    intro q vis par fd q' vis' par' heq hinv hu hl
    have hvadj : v ∈ g.adj u := hl v (List.mem_cons_self _ _)
    have hlrest : ∀ w ∈ rest, w ∈ g.adj u :=
      fun w hw => hl w (List.mem_cons_of_mem _ hw)
    simp only [scanAdj] at heq
    by_cases hg : v ∉ vis ∧ g.cap u v - f u v > 0
    · rw [if_pos hg] at heq
      have hinv' : BfsInv g f source (vis ++ [v]) (par ++ [(v, u)]) :=
        hinv.step hu hg.1 hvadj hg.2
      by_cases hvs : v = sink
      · rw [if_pos hvs] at heq
        simp only [Prod.mk.injEq] at heq
        obtain ⟨rfl, rfl, rfl, rfl⟩ := heq
        refine ⟨hinv', fun x hx => List.mem_append_left _ hx, ?_, ?_, ?_⟩
        · intro hq x hx
          rcases List.mem_append.mp hx with h1 | h1
          · exact List.mem_append_left _ (hq x h1)
          · exact List.mem_append_right _ h1
        · intro _
          refine ⟨hvs ▸ List.mem_append_right _ (List.mem_singleton_self v), ?_⟩
          intro hss
          exact (hvs ▸ hg.1) (hss ▸ hinv.src_mem)
        · intro hs
          exact absurd hs (hvs ▸ hg.1)
      · rw [if_neg hvs] at heq
        obtain ⟨inv2, grow2, qsub2, found2, nofind2⟩ :=
          ih (q ++ [v]) (vis ++ [v]) (par ++ [(v, u)]) fd q' vis' par' heq
            hinv' (List.mem_append_left _ hu) hlrest
        refine ⟨inv2, fun x hx => grow2 x (List.mem_append_left _ hx),
          ?_, found2, ?_⟩
        · intro hq
          refine qsub2 ?_
          intro x hx
          rcases List.mem_append.mp hx with h1 | h1
          · exact List.mem_append_left _ (hq x h1)
          · exact List.mem_append_right _ h1
        · intro hs
          exact nofind2 (List.mem_append_left _ hs)
    · rw [if_neg hg] at heq
      exact ih q vis par fd q' vis' par' heq hinv hu hlrest

/-- A scan that does not stop at the sink does not increase the BFS
measure `unvis + |queue|`: every node it enqueues is freshly visited. -/
theorem scanAdj_measure (g : Graph) (f : Flw) (u sink : Nat) :
    ∀ (l q vis : List Nat) (par : List (Nat × Nat))
      (q' vis' : List Nat) (par' : List (Nat × Nat)),
      scanAdj g f u sink l q vis par = (false, q', vis', par') →
      (∀ v ∈ l, v ∈ g.univ) →
      unvis g.univ vis' + q'.length ≤ unvis g.univ vis + q.length := by
  intro l
  induction l with
  | nil =>
    intro q vis par q' vis' par' heq _
    simp only [scanAdj, Prod.mk.injEq] at heq
    obtain ⟨rfl, rfl, rfl⟩ := heq.2
    exact Nat.le_refl _
  | cons v rest ih =>
    intro q vis par q' vis' par' heq hl
    have hvu : v ∈ g.univ := hl v (List.mem_cons_self _ _)
    have hlrest : ∀ w ∈ rest, w ∈ g.univ :=
      fun w hw => hl w (List.mem_cons_of_mem _ hw)
    simp only [scanAdj] at heq
    by_cases hg : v ∉ vis ∧ g.cap u v - f u v > 0
    · rw [if_pos hg] at heq
      by_cases hvs : v = sink
      · rw [if_pos hvs] at heq
        simp at heq
      · rw [if_neg hvs] at heq
        have hstep : unvis g.univ (vis ++ [v]) < unvis g.univ vis :=
          unvis_lt hvu hg.1 (List.mem_append_right _ (List.mem_singleton_self v))
            (fun x hx => List.mem_append_left _ hx)
        have := ih (q ++ [v]) (vis ++ [v]) (par ++ [(v, u)]) q' vis' par'
          heq hlrest
        have hlen : (q ++ [v]).length = q.length + 1 := by simp
        omega
    · rw [if_neg hg] at heq
      exact ih q vis par q' vis' par' heq hlrest

/-- The BFS loop completes (does not run out of fuel) whenever the fuel
exceeds the measure `unvis + |queue|`. -/
theorem bfsLoop_isSome {g : Graph} (f : Flw) (sink : Nat)
    (hadj : AdjClosed g) :
    ∀ (fuel : Nat) (q vis : List Nat) (par : List (Nat × Nat)),
      unvis g.univ vis + q.length < fuel →
      (bfsLoop g f sink fuel q vis par).isSome := by
  intro fuel
  induction fuel with
  | zero =>
    intro q vis par h
    exact absurd h (Nat.not_lt_zero _)
  | succ fuel ih =>
    intro q vis par h
    match q with
    | [] => simp [bfsLoop]
    | u :: qs =>
      simp only [bfsLoop]
      rcases hscan : scanAdj g f u sink (g.adj u) qs vis par with
        ⟨fd, q', vis', par'⟩
      match fd with
      | true => simp
      | false =>
        simp only []
        refine ih q' vis' par' ?_
        have := scanAdj_measure g f u sink (g.adj u) qs vis par q' vis' par'
          hscan (fun v hv => hadj u v hv)
        have hq : (u :: qs).length = qs.length + 1 := rfl
        omega

/-- The BFS loop preserves the invariant; a `true` result visits a sink
distinct from the source, and a sink already visited at entry (in
particular, the source itself) can never yield `true`. -/
theorem bfsLoop_invariant {g : Graph} {f : Flw} {source sink : Nat} :
    ∀ (fuel : Nat) (q vis : List Nat) (par : List (Nat × Nat))
      (fd : Bool) (vis' : List Nat) (par' : List (Nat × Nat)),
      bfsLoop g f sink fuel q vis par = some (fd, vis', par') →
      BfsInv g f source vis par → (∀ x ∈ q, x ∈ vis) →
      BfsInv g f source vis' par' ∧
        (fd = true → sink ∈ vis' ∧ sink ≠ source) ∧
        (sink ∈ vis → fd = false) := by
  intro fuel
  induction fuel with
  | zero =>
    intro q vis par fd vis' par' heq
    cases heq
  | succ fuel ih =>
    intro q vis par fd vis' par' heq hinv hq
    match q with
    | [] =>
      simp only [bfsLoop, Option.some.injEq, Prod.mk.injEq] at heq
      obtain ⟨rfl, rfl, rfl⟩ := heq
      refine ⟨hinv, ?_, fun _ => rfl⟩
      intro h
      cases h
    | u :: qs =>
      simp only [bfsLoop] at heq
      rcases hscan : scanAdj g f u sink (g.adj u) qs vis par with
        ⟨sfd, sq', svis', spar'⟩
      rw [hscan] at heq
      obtain ⟨inv2, grow2, qsub2, found2, nofind2⟩ :=
        scanAdj_invariant g f u source sink (g.adj u) qs vis par sfd sq'
          svis' spar' hscan hinv (hq u (List.mem_cons_self _ _))
          (fun v hv => hv)
      match sfd with
      | true =>
        simp only [Option.some.injEq, Prod.mk.injEq] at heq
        obtain ⟨rfl, rfl, rfl⟩ := heq
        exact ⟨inv2, fun _ => found2 rfl, fun hs => absurd (nofind2 hs) (by simp)⟩
      | false =>
        simp only [] at heq
        have hq' : ∀ x ∈ sq', x ∈ svis' :=
          qsub2 (fun x hx => hq x (List.mem_cons_of_mem _ hx))
        obtain ⟨inv3, found3, nofind3⟩ :=
          ih sq' svis' spar' fd vis' par' heq inv2 hq'
        exact ⟨inv3, found3, fun hs => nofind3 (grow2 sink hs)⟩

/-- Specification of `bfs_path_exists`: it completes on adjacency-closed
graphs, its result satisfies the invariant, `true` means the sink was
visited and differs from the source, and BFS with `sink = source` never
reports a path. -/
theorem bfs_spec {g : Graph} (f : Flw) (source sink : Nat)
    (hadj : AdjClosed g) :
    ∃ fd vis par, bfs_path_exists g f source sink = some (fd, vis, par) ∧
      BfsInv g f source vis par ∧
      (fd = true → sink ∈ vis ∧ sink ≠ source) ∧
      (sink = source → fd = false) := by
  have hsome : (bfsLoop g f sink (bfsFuel g) [source] [source] []).isSome := by
    refine bfsLoop_isSome f sink hadj _ _ _ _ ?_
    have := unvis_le_length g.univ [source]
    simp only [bfsFuel, List.length_singleton]
    omega
  rcases hres : bfsLoop g f sink (bfsFuel g) [source] [source] [] with _ | r
  · rw [hres] at hsome
    cases hsome
  · rcases r with ⟨fd, vis, par⟩
    obtain ⟨inv2, found2, nofind2⟩ :=
      bfsLoop_invariant (bfsFuel g) [source] [source] [] fd vis par hres
        (BfsInv.init g f source) (fun x hx => hx)
    refine ⟨fd, vis, par, hres, inv2, found2, ?_⟩
    intro hss
    exact nofind2 (hss ▸ List.mem_singleton_self source)

/-! ### Path reconstruction, bottleneck and augmentation lemmas -/

/-- Shape of the arc list reconstructed from the parent map for a
non-source start: every arc is a recorded parent arc whose target is
not the source, and the unique arc leaving the source is the last one. -/
def ArcsOK (par : List (Nat × Nat)) (source : Nat)
    (L : List (Nat × Nat)) : Prop :=
  (∀ a ∈ L, (a.2, a.1) ∈ par ∧ a.2 ≠ source) ∧
  ∃ L0 v1, L = L0 ++ [(source, v1)] ∧ ∀ a ∈ L0, a.1 ≠ source

theorem walk_spec {g : Graph} {f : Flw} {source : Nat} {vis : List Nat}
    {par : List (Nat × Nat)} (hinv : BfsInv g f source vis par) :
    ∀ (fuel : Nat) (x : Nat), x ∈ vis → idxOf vis x < fuel →
      ∃ L, walkPath par source fuel x = some L ∧
        (x = source → L = []) ∧ (x ≠ source → ArcsOK par source L) := by
  intro fuel
  induction fuel with
  | zero =>
    intro x _ h
    exact absurd h (Nat.not_lt_zero _)
  | succ fuel ih =>
    intro x hx hfx
    by_cases hxs : x = source
    · refine ⟨[], ?_, fun _ => rfl, fun hc => absurd hxs hc⟩
      simp [walkPath, hxs]
    · have hsm : (lookupPar par x).isSome := hinv.cover x hx hxs
      rcases hlk : lookupPar par x with _ | u
      · rw [hlk] at hsm
        cases hsm
      · have hmem : (x, u) ∈ par := lookupPar_mem hlk
        have hpp := hinv.par_prop (x, u) hmem
        have hu : u ∈ vis := hpp.1
        have hidx : idxOf vis u < idxOf vis x := hpp.2.2.1
        have hfu : idxOf vis u < fuel := by omega
        obtain ⟨L', hw', hsrc', hns'⟩ := ih u hu hfu
        refine ⟨(u, x) :: L', ?_, fun hc => absurd hc hxs, ?_⟩
        · simp [walkPath, hxs, hlk, hw']
        · intro _
          by_cases hus : u = source
          · have : L' = [] := hsrc' hus
            subst this
            subst hus
            exact ⟨fun a ha => by
              have hax : a = (u, x) := List.mem_singleton.mp ha
              subst hax
              exact ⟨hmem, hxs⟩,
              [], x, rfl, by intro a ha; cases ha⟩
          · obtain ⟨hall', L0, v1, hsplit, hheads⟩ := hns' hus
            refine ⟨?_, (u, x) :: L0, v1, by rw [hsplit]; rfl, ?_⟩
            · intro a ha
              rcases List.mem_cons.mp ha with h1 | h1
              · subst h1
                exact ⟨hmem, hxs⟩
              · exact hall' a h1
            · intro a ha
              rcases List.mem_cons.mp ha with h1 | h1
              · subst h1
                exact hus
              · exact hheads a h1

theorem foldl_min_le_init (g : Graph) (f : Flw) :
    ∀ (l : List (Nat × Nat)) (init : Int),
      l.foldl (fun m b => min m (resid g f b)) init ≤ init := by
  intro l
  induction l with
  | nil => intro init; exact le_refl _
  | cons a rest ih =>
    intro init
    exact le_trans (ih _) (min_le_left _ _)

theorem foldl_min_le_mem (g : Graph) (f : Flw) :
    ∀ (l : List (Nat × Nat)) (init : Int) (a : Nat × Nat), a ∈ l →
      l.foldl (fun m b => min m (resid g f b)) init ≤ resid g f a := by
  intro l
  induction l with
  | nil => intro init a ha; cases ha
  | cons b tl ih =>
    intro init a ha
    rcases List.mem_cons.mp ha with h1 | h1
    · subst h1
      exact le_trans (foldl_min_le_init g f tl _) (min_le_right _ _)
    · exact ih _ a h1

theorem le_foldl_min (g : Graph) (f : Flw) :
    ∀ (l : List (Nat × Nat)) (init c : Int), c ≤ init →
      (∀ a ∈ l, c ≤ resid g f a) →
      c ≤ l.foldl (fun m b => min m (resid g f b)) init := by
  intro l
  induction l with
  | nil => intro init c h _; exact h
  | cons b tl ih =>
    intro init c h hall
    exact ih _ c (le_min h (hall b (List.mem_cons_self _ _)))
      (fun a ha => hall a (List.mem_cons_of_mem _ ha))

theorem bottleneck_le_resid {g : Graph} {f : Flw} {L : List (Nat × Nat)}
    {a : Nat × Nat} (h : a ∈ L) : bottleneck g f L ≤ resid g f a := by
  match L with
  | [] => cases h
  | a0 :: rest =>
    rcases List.mem_cons.mp h with h1 | h1
    · subst h1
      exact foldl_min_le_init g f rest _
    · exact foldl_min_le_mem g f rest _ a h1

theorem le_bottleneck {g : Graph} {f : Flw} {L : List (Nat × Nat)}
    {c : Int} (hL : L ≠ []) (h : ∀ a ∈ L, c ≤ resid g f a) :
    c ≤ bottleneck g f L := by
  match L with
  | [] => exact absurd rfl hL
  | a0 :: rest =>
    exact le_foldl_min g f rest _ c (h a0 (List.mem_cons_self _ _))
      (fun a ha => h a (List.mem_cons_of_mem _ ha))

/-- Pointwise value of one antisymmetric push. -/
theorem pushArc_eval (f : Flw) (u v : Nat) (pf : Int) (x y : Nat) :
    pushArc f u v pf x y =
      f x y + (if x = u ∧ y = v then pf else 0) +
        (if x = v ∧ y = u then -pf else 0) := by
  simp only [pushArc, addAt]
  split_ifs <;> omega

/-- Arcs avoiding node `s` entirely do not change row `s` of the flow. -/
theorem augment_row_eq {s : Nat} {L : List (Nat × Nat)}
    (h : ∀ a ∈ L, a.1 ≠ s ∧ a.2 ≠ s) :
    ∀ (f : Flw) (pf : Int) (y : Nat), augment f L pf s y = f s y := by
  induction L with
  | nil => intro f pf y; rfl
  | cons a rest ih =>
    intro f pf y
    obtain ⟨h1, h2⟩ := h a (List.mem_cons_self _ _)
    have hrest := fun b hb => h b (List.mem_cons_of_mem _ hb)
    simp only [augment, List.foldl_cons]
    rw [show (List.foldl (fun fc a => pushArc fc a.1 a.2 pf)
      (pushArc f a.1 a.2 pf) rest) s y =
        augment (pushArc f a.1 a.2 pf) rest pf s y from rfl, ih hrest]
    rw [pushArc_eval]
    have hx1 : ¬(s = a.1 ∧ y = a.2) := fun hc => h1 hc.1.symm
    have hx2 : ¬(s = a.2 ∧ y = a.1) := fun hc => h2 hc.1.symm
    simp [hx1, hx2]

/-- Row `s` of the flow after augmenting along a reconstructed path:
only the first arc `(s, v1)` touches it, adding `pf` at column `v1`. -/
theorem augment_row {s v1 : Nat} {L0 L : List (Nat × Nat)}
    (hsplit : L = L0 ++ [(s, v1)]) (hheads : ∀ a ∈ L0, a.1 ≠ s)
    (htargets : ∀ a ∈ L, a.2 ≠ s) :
    ∀ (f : Flw) (pf : Int) (y : Nat),
      augment f L pf s y = f s y + (if y = v1 then pf else 0) := by
  intro f pf y
  subst hsplit
  have hv1s : v1 ≠ s := htargets (s, v1) (List.mem_append_right _
    (List.mem_singleton_self _))
  have h0 : ∀ a ∈ L0, a.1 ≠ s ∧ a.2 ≠ s := fun a ha =>
    ⟨hheads a ha, htargets a (List.mem_append_left _ ha)⟩
  have happ : augment f (L0 ++ [(s, v1)]) pf =
      pushArc (augment f L0 pf) s v1 pf := by
    simp [augment, List.foldl_append]
  rw [happ, pushArc_eval, augment_row_eq h0]
  have hx2 : ¬(s = v1 ∧ y = s) := fun hc => hv1s hc.1.symm
  by_cases hy : y = v1
  · simp only [hy, and_true, if_pos rfl, if_true]
    rw [if_neg (fun hc : s = v1 ∧ v1 = s => hv1s hc.2)]
    ring
  · have hx1 : ¬(s = s ∧ y = v1) := fun hc => hy hc.2
    simp [hy, hx1, hx2]

/-! ### Antisymmetry of the flow matrix -/

/-- The engine invariant `flow[v][u] == -flow[u][v]`. -/
def Antisym (f : Flw) : Prop := ∀ u v, f v u = -(f u v)

theorem antisym_zero : Antisym (fun _ _ => 0) := by
  intro u v
  simp

theorem antisym_pushArc {f : Flw} (h : Antisym f) (u v : Nat) (pf : Int) :
    Antisym (pushArc f u v pf) := by
  intro x y
  rw [pushArc_eval, pushArc_eval]
  have hxy := h x y
  split_ifs <;> omega

theorem antisym_augment {f : Flw} (h : Antisym f)
    (L : List (Nat × Nat)) (pf : Int) : Antisym (augment f L pf) := by
  induction L generalizing f with
  | nil => exact h
  | cons a rest ih => exact ih (antisym_pushArc h a.1 a.2 pf)

theorem antisym_ffIter {g : Graph} {source sink : Nat} {f f' : Flw}
    {pf : Int} (heq : ffIter g source sink f = some (some (f', pf)))
    (h : Antisym f) : Antisym f' := by
  unfold ffIter at heq
  rcases hb : bfs_path_exists g f source sink with _ | r
  · rw [hb] at heq
    cases heq
  · rw [hb] at heq
    rcases r with ⟨fd, vis, par⟩
    match fd with
    | false => cases heq
    | true =>
      simp only [] at heq
      rcases hw : walkPath par source vis.length sink with _ | arcs
      · rw [hw] at heq
        cases heq
      · rw [hw] at heq
        simp only [Option.some.injEq] at heq
        obtain ⟨rfl, rfl⟩ := heq
        exact antisym_augment h arcs _

theorem antisym_ffLoop {g : Graph} {source sink : Nat} :
    ∀ (fuel : Nat) (f : Flw) (tot v : Int) (fl : Flw),
      ffLoop g source sink fuel f tot = some (v, fl) →
      Antisym f → Antisym fl := by
  intro fuel
  induction fuel with
  | zero =>
    intro f tot v fl heq
    cases heq
  | succ fuel ih =>
    intro f tot v fl heq hf
    simp only [ffLoop] at heq
    rcases hi : ffIter g source sink f with _ | r
    · rw [hi] at heq
      cases heq
    · rw [hi] at heq
      match r with
      | none =>
        simp only [Option.some.injEq, Prod.mk.injEq] at heq
        obtain ⟨rfl, rfl⟩ := heq
        exact hf
      | some (f', pf) =>
        exact ih f' (tot + pf) v fl heq (antisym_ffIter hi hf)

/-! ### One iteration of the augmenting loop -/

/-- Case analysis of one loop iteration on an adjacency-closed graph:
it never runs out of internal fuel, and an augmentation pushes a
positive integer amount `pf` that changes row `source` of the flow only
at one adjacency key `v1`, by `+pf`, with `pf` at most the residual
capacity of `(source, v1)`. -/
theorem ffIter_cases {g : Graph} (source sink : Nat) (f : Flw)
    (hadj : AdjClosed g) :
    ffIter g source sink f = some none ∨
    ∃ f' pf v1, ffIter g source sink f = some (some (f', pf)) ∧
      1 ≤ pf ∧ v1 ∈ g.adj source ∧
      pf ≤ g.cap source v1 - f source v1 ∧
      (∀ y, f' source y = f source y + (if y = v1 then pf else 0)) := by
  obtain ⟨fd, vis, par, hb, hinv, hfound, _⟩ :=
    bfs_spec f source sink hadj
  match fd with
  | false =>
    left
    simp [ffIter, hb]
  | true =>
    right
    obtain ⟨hsv, hsns⟩ := hfound rfl
    obtain ⟨L, hw, _, hok⟩ :=
      walk_spec hinv vis.length sink hsv (idxOf_lt_length hsv)
    obtain ⟨hall, L0, v1, hsplit, hheads⟩ := hok hsns
    have htargets : ∀ a ∈ L, a.2 ≠ source := fun a ha => (hall a ha).2
    have hLne : L ≠ [] := by
      rw [hsplit]
      simp
    have hresid : ∀ a ∈ L, 1 ≤ resid g f a := by
      intro a ha
      have hp := hinv.par_prop (a.2, a.1) (hall a ha).1
      have : 0 < g.cap a.1 a.2 - f a.1 a.2 := hp.2.2.2.2.1
      unfold resid
      omega
    have hsv1 : (source, v1) ∈ L := by
      rw [hsplit]
      exact List.mem_append_right _ (List.mem_singleton_self _)
    have hv1adj : v1 ∈ g.adj source := by
      have hp := hinv.par_prop ((source, v1).2, (source, v1).1)
        (hall (source, v1) hsv1).1
      exact hp.2.2.2.1
    refine ⟨augment f L (bottleneck g f L), bottleneck g f L, v1, ?_, ?_,
      hv1adj, ?_, ?_⟩
    · simp [ffIter, hb, hw]
    · exact le_bottleneck hLne hresid
    · exact bottleneck_le_resid hsv1
    · exact augment_row hsplit hheads htargets f (bottleneck g f L)

/-! ### Termination and value bound of the augmenting loop -/

/-- Sum of the flow over the source's adjacency keys. -/
def sumRowF (g : Graph) (s : Nat) (f : Flw) : Int :=
  ((g.adj s).map (fun v => f s v)).sum

/-- Sum of the non-negative parts of the source row's capacities. -/
def capRowPos (g : Graph) (s : Nat) : Int :=
  ((g.adj s).map (fun v => max (g.cap s v) 0)).sum

/-- Row invariant: each source-row flow entry is bounded by the
non-negative part of its capacity. -/
def RowInv (g : Graph) (s : Nat) (f : Flw) : Prop :=
  ∀ v ∈ g.adj s, f s v ≤ max (g.cap s v) 0

theorem sumRowF_le_capRowPos {g : Graph} {s : Nat} {f : Flw}
    (h : RowInv g s f) : sumRowF g s f ≤ capRowPos g s := by
  unfold sumRowF capRowPos
  exact List.sum_le_sum (fun v hv => h v hv)

theorem sum_map_congr_add {f f' : Flw} {s v1 : Nat} {pf : Int}
    (hrow : ∀ y, f' s y = f s y + (if y = v1 then pf else 0))
    (hpf : 0 ≤ pf) :
    ∀ l : List Nat, v1 ∈ l →
      (l.map (fun v => f s v)).sum + pf ≤ (l.map (fun v => f' s v)).sum := by
  intro l
  induction l with
  | nil => intro h; cases h
  | cons a rest ih =>
    intro hm
    have haux : ∀ m : List Nat,
        (m.map (fun v => f s v)).sum ≤ (m.map (fun v => f' s v)).sum := by
      intro m
      refine List.sum_le_sum ?_
      intro v _
      rw [hrow v]
      by_cases hv : v = v1 <;> simp [hv, hpf]
    rcases List.mem_cons.mp hm with h1 | h1
    · have h2 : f s a + pf ≤ f' s a := by
        rw [hrow a, if_pos h1.symm]
      have h3 := haux rest
      simp only [List.map_cons, List.sum_cons]
      omega
    · have := ih h1
      have h2 : f s a ≤ f' s a := by
        rw [hrow a]
        by_cases hv : a = v1 <;> simp [hv, hpf]
      simp only [List.map_cons, List.sum_cons]
      omega

theorem rowInv_step {g : Graph} {s v1 : Nat} {f f' : Flw} {pf : Int}
    (h : RowInv g s f)
    (hrow : ∀ y, f' s y = f s y + (if y = v1 then pf else 0))
    (hle : pf ≤ g.cap s v1 - f s v1) : RowInv g s f' := by
  intro v hv
  rw [hrow v]
  by_cases hvv : v = v1
  · subst hvv
    have := h v hv
    simp only [if_pos rfl]
    have hc : f s v + pf ≤ g.cap s v := by omega
    omega
  · simpa [hvv] using h v hv

/-- The augmenting loop completes and its total is bounded by
`capRowPos` whenever the fuel exceeds the remaining headroom. -/
theorem ffLoop_spec {g : Graph} {s t : Nat} (hadj : AdjClosed g) :
    ∀ (fuel : Nat) (f : Flw) (tot : Int), RowInv g s f →
      tot ≤ sumRowF g s f →
      (capRowPos g s - tot).toNat < fuel →
      ∃ v fl, ffLoop g s t fuel f tot = some (v, fl) ∧ v ≤ capRowPos g s := by
  intro fuel
  induction fuel with
  | zero =>
    intro f tot _ _ hfuel
    exact absurd hfuel (Nat.not_lt_zero _)
  | succ fuel ih =>
    intro f tot hrowinv hsum hfuel
    rcases ffIter_cases s t f hadj with hdone | hstep
    · refine ⟨tot, f, ?_, ?_⟩
      · simp [ffLoop, hdone]
      · exact le_trans hsum (sumRowF_le_capRowPos hrowinv)
    · obtain ⟨f', pf, v1, hi, hpf1, hv1, hple, hrow⟩ := hstep
      have hrowinv' : RowInv g s f' := rowInv_step hrowinv hrow hple
      have hsum' : tot + pf ≤ sumRowF g s f' := by
        have h4 := sum_map_congr_add hrow (by omega) (g.adj s) hv1
        unfold sumRowF at hsum ⊢
        omega
      have hcap' : tot + pf ≤ capRowPos g s :=
        le_trans hsum' (sumRowF_le_capRowPos hrowinv')
      have hfuel' : (capRowPos g s - (tot + pf)).toNat < fuel := by omega
      obtain ⟨v, fl, hloop, hb⟩ := ih f' (tot + pf) hrowinv' hsum' hfuel'
      refine ⟨v, fl, ?_, hb⟩
      simp [ffLoop, hi, hloop]

/-! ### Graphs built by `add_edge` -/

theorem adjClosed_add_edge {g : Graph} (h : AdjClosed g) (u v : Nat)
    (c : Int) : AdjClosed (add_edge g u v c) := by
  intro a b hb
  simp only [add_edge] at hb ⊢
  by_cases hau : a = u
  · rw [if_pos hau] at hb
    rcases mem_of_mem_insertNew hb with h1 | h1
    · exact mem_insertNew_of_mem _ (mem_insertNew_of_mem _ (h u b h1))
    · subst h1
      exact mem_insertNew_self _ _
  · rw [if_neg hau] at hb
    exact mem_insertNew_of_mem _ (mem_insertNew_of_mem _ (h a b hb))

theorem adjClosed_buildGraph (V : Nat) (edges : List (Nat × Nat × Int)) :
    AdjClosed (buildGraph V edges) := by
  suffices haux : ∀ (es : List (Nat × Nat × Int)) (g : Graph), AdjClosed g →
      AdjClosed (es.foldl (fun h e => add_edge h e.1 e.2.1 e.2.2) g) by
    refine haux edges (mkGraph V) ?_
    intro a b hb
    cases hb
  intro es
  induction es with
  | nil => intro g hg; exact hg
  | cons e rest ih =>
    intro g hg
    exact ih _ (adjClosed_add_edge hg e.1 e.2.1 e.2.2)

theorem cap_nonneg_buildGraph (V : Nat) (edges : List (Nat × Nat × Int))
    (hc : ∀ e ∈ edges, 0 ≤ e.2.2) :
    ∀ u v, 0 ≤ (buildGraph V edges).cap u v := by
  suffices haux : ∀ (es : List (Nat × Nat × Int)) (g : Graph),
      (∀ e ∈ es, 0 ≤ e.2.2) → (∀ u v, 0 ≤ g.cap u v) →
      ∀ u v, 0 ≤ (es.foldl (fun h e => add_edge h e.1 e.2.1 e.2.2) g).cap u v by
    refine haux edges (mkGraph V) hc ?_
    intro u v
    exact le_refl 0
  intro es
  induction es with
  | nil => intro g _ hg; exact hg
  | cons e rest ih =>
    intro g hes hg
    refine ih _ (fun e' he' => hes e' (List.mem_cons_of_mem _ he')) ?_
    intro u v
    have he0 : 0 ≤ e.2.2 := hes e (List.mem_cons_self _ _)
    simp only [add_edge]
    split
    · have := hg u v
      omega
    · exact hg u v

/-! ### Concrete instances used by the claims -/

/-- A 6-node network whose maximum flow is 2 but that forces the first
BFS down `0 → 1 → 2 → 5`, after which recovery needs the reverse
residual arc `2 → 1` (a pair with zero forward capacity). -/
def demoEdges : List (Nat × Nat × Int) :=
  [(0, 1, 1), (1, 2, 1), (2, 5, 1), (0, 3, 1), (3, 2, 1), (1, 4, 1), (4, 5, 1)]

def demoG : Graph := buildGraph 6 demoEdges

/-- Capacity of the cut given by the source-side indicator `S`. -/
def cutCap (edges : List (Nat × Nat × Int)) (S : Nat → Bool) : Int :=
  (edges.map (fun e => if S e.1 ∧ ¬ S e.2.1 then e.2.2 else 0)).sum

/-- The flow matrix after the first augmentation on the demo network
(the engine pushes one unit along `0 → 1 → 2 → 5`). -/
def demoF1 : Flw :=
  match ffIter demoG 0 5 (fun _ _ => 0) with
  | some (some (f, _)) => f
  | _ => fun _ _ => 0

/-- The flow matrix after `n` iterations of the engine's augmenting
loop, starting from the all-zero matrix (unchanged once BFS fails). -/
def iterAug (g : Graph) (source sink : Nat) : Nat → Option Flw
  | 0 => some (fun _ _ => 0)
  | Nat.succ n =>
    match iterAug g source sink n with
    | none => none
    | some f =>
      match ffIter g source sink f with
      | some (some (f', _)) => some f'
      | some none => some f
      | none => none

/-- A custom level with an endpoint outside `[0, 2)` and a negative
capacity. -/
def badLevel : Level := ⟨2, [(0, 7, 5), (0, 1, -3)], 0, 1⟩

/-- Two parallel paths of capacity 4 (max flow 8). -/
def gOver : Graph := buildGraph 4 [(0, 1, 4), (1, 3, 4), (0, 2, 4), (2, 3, 4)]

/-- A user flow pushing 8 units through the capacity-4 upper path. -/
def ufOver : UF := [(0, [(1, 8)]), (1, [(3, 8)])]

/-- A chain `0 → 1 → 2` of capacity 3 (max flow 3). -/
def gC9 : Graph := buildGraph 3 [(0, 1, 3), (1, 2, 3)]

/-- A user flow of 3 units on the nonexistent edge `(0, 2)`. -/
def ufC9 : UF := [(0, [(2, 3)])]

/-- The chain of the spec's Scenario 1. -/
def chainG : Graph := buildGraph 4 [(0, 1, 10), (1, 2, 5), (2, 3, 15)]

/-- Scenario 1 of the spec: linear chain, max flow 5. -/
theorem scenario_chain :
    (ford_fulkerson_max_flow chainG 0 3).map Prod.fst = some 5 := by decide

/-- Scenario 2 of the spec: diamond, max flow 20. -/
theorem scenario_diamond :
    (ford_fulkerson_max_flow
      (buildGraph 4 [(0, 1, 10), (0, 2, 10), (1, 3, 10), (2, 3, 10)]) 0 3).map
        Prod.fst = some 20 := by decide

/-! ### The claims -/

/-- Claim C1: on `demoEdges` (source 0, sink 5) the engine returns 1,
yet every source-sink cut has capacity at least 2 (the minimum cut is
2, which is also the true maximum flow): the returned value is NOT the
minimum cut capacity, and an augmenting path through the reverse
residual arc `2 → 1` still exists when the BFS gives up. -/
theorem c1_return_value_not_min_cut :
    (ford_fulkerson_max_flow demoG 0 5).map Prod.fst = some 1 ∧
    (∀ m : Fin 64, (m : Nat).testBit 0 = true → (m : Nat).testBit 5 = false →
      2 ≤ cutCap demoEdges (fun n => (m : Nat).testBit n)) := by
  refine ⟨by decide, by decide⟩

/-- Claim C2: after the first augmentation on the demo network the
reverse residual arc `(2, 1)` has `capacity[2][1] - flow[2][1] = 1 > 0`
(its forward capacity is zero and `flow[2][1] = -1`), the BFS visits
node 2, and still it never reaches node 1: an arc with positive
residual capacity is not traversable when its head is not a key of
`graph[u]`, refuting the claimed iff. -/
theorem c2_reverse_residual_arc_not_traversable :
    demoF1 2 1 = -1 ∧ demoG.cap 2 1 = 0 ∧
    0 < demoG.cap 2 1 - demoF1 2 1 ∧
    (bfs_path_exists demoG demoF1 0 5).map
      (fun r => (r.1, decide (2 ∈ r.2.1), decide (1 ∈ r.2.1))) =
      some (false, true, false) := by
  refine ⟨by decide, by decide, by decide, by decide⟩

/-- Claim C7 counterexample: the route accepts a level whose edge list
contains a node index outside `[0, V)` and a negative capacity, builds
the graph and answers normally; no input error is reported. -/
theorem c7_malformed_input_not_rejected :
    ¬ ∃ e, verify_flow (some badLevel) [] = Except.error e := by
  rintro ⟨e, he⟩
  have hok : verify_flow (some badLevel) [] = Except.ok (some (true, 0, 0)) :=
    congrArg Except.ok (by decide)
  rw [hok] at he
  cases he

/-- Claim C7 (amended): the code performs no validation of node indices
or capacities: for every supplied level the route returns a normal
`ok` verification result (malformed edges included), and the only
rejected input is a missing level. -/
theorem c7_no_input_validation :
    (∀ (L : Level) (flows : List (Nat × Nat × Int)),
      ∃ r, verify_flow (some L) flows = Except.ok r) ∧
    verify_flow none [] = Except.error "Level not found" ∧
    verify_flow (some badLevel) [] = Except.ok (some (true, 0, 0)) := by
  exact ⟨fun L flows => ⟨_, rfl⟩, rfl, congrArg Except.ok (by decide)⟩

/-- Claim C9: `verify_maximum_flow` counts positive supplied entries
leaving the source even on pairs with zero capacity: on the chain
`0 → 1 → 2` a user flow of 3 on the nonexistent edge `(0, 2)` is
summed into `user_flow_value` and the assignment is reported valid. -/
theorem c9_zero_capacity_source_entries_counted :
    verify_maximum_flow gC9 0 2 ufC9 = some (true, 3, 3) ∧
    gC9.cap 0 2 = 0 ∧ userFlowValue ufC9 0 = 3 := by
  refine ⟨by decide, by decide, by decide⟩

theorem consViolated_iff (uf : UF) (V s t : Nat) :
    consViolated uf V s t = true ↔
      ∃ node, node < V ∧ node ≠ s ∧ node ≠ t ∧
        inflowAt uf node ≠ outflowAt uf V node := by
  unfold consViolated
  rw [List.any_eq_true]
  constructor
  · rintro ⟨node, hmem, hp⟩
    simp only [Bool.and_eq_true, decide_eq_true_eq] at hp
    exact ⟨node, List.mem_range.mp hmem, hp.1.1, hp.1.2, hp.2⟩
  · rintro ⟨node, h1, h2, h3, h4⟩
    refine ⟨node, List.mem_range.mpr h1, ?_⟩
    simp [h2, h3, h4]

/-- Claim C3: `is_valid` is `true` exactly when conservation holds at
every node other than source and sink AND the summed positive
source-outgoing entries equal the independently computed maximum; no
capacity bound is re-checked — on two parallel capacity-4 paths a user
flow pushing 8 through one path (twice its capacity) is reported
valid. -/
theorem c3_verifier_validity_condition :
    (∀ (g : Graph) (s t : Nat) (uf : UF) (res : Bool × Int × Int),
      verify_maximum_flow g s t uf = some res →
      (res.1 = true ↔
        ((∀ node, node < g.V → node ≠ s → node ≠ t →
            inflowAt uf node = outflowAt uf g.V node) ∧
          userFlowValue uf s = res.2.2))) ∧
    (verify_maximum_flow gOver 0 3 ufOver = some (true, 8, 8) ∧
      gOver.cap 0 1 = 4 ∧ ufGet ufOver 0 1 = 8) := by
  constructor
  · intro g s t uf res heq
    unfold verify_maximum_flow at heq
    rcases hm : ford_fulkerson_max_flow (copyGraph g) s t with _ | p
    · rw [hm] at heq
      cases heq
    · rw [hm] at heq
      rcases p with ⟨amf, fl⟩
      simp only [] at heq
      by_cases hv : consViolated uf g.V s t = true
      · rw [if_pos hv] at heq
        simp only [Option.some.injEq] at heq
        subst heq
        obtain ⟨node, h1, h2, h3, h4⟩ := (consViolated_iff uf g.V s t).mp hv
        constructor
        · intro hfalse
          cases hfalse
        · rintro ⟨hcons, _⟩
          exact absurd (hcons node h1 h2 h3) h4
      · rw [if_neg hv] at heq
        simp only [Option.some.injEq] at heq
        subst heq
        have hcons : ∀ node, node < g.V → node ≠ s → node ≠ t →
            inflowAt uf node = outflowAt uf g.V node := by
          intro node h1 h2 h3
          by_contra h4
          exact hv ((consViolated_iff uf g.V s t).mpr ⟨node, h1, h2, h3, h4⟩)
        simp only [decide_eq_true_eq]
        constructor
        · intro h5
          exact ⟨hcons, h5⟩
        · rintro ⟨_, h5⟩
          exact h5
  · exact ⟨by decide, by decide, by decide⟩

/-- Claim C4: the `true_max_flow_value` component of the verifier's
answer is computed by running the engine on a freshly copied capacity
structure with an all-zero flow; it is identical whatever user flow is
supplied. -/
theorem c4_reference_max_flow_independent_of_user_flow :
    ∀ (g : Graph) (s t : Nat) (uf1 uf2 : UF),
      (verify_maximum_flow g s t uf1).map (fun r => r.2.2) =
        (verify_maximum_flow g s t uf2).map (fun r => r.2.2) := by
  intro g s t uf1 uf2
  unfold verify_maximum_flow
  rcases ford_fulkerson_max_flow (copyGraph g) s t with _ | ⟨amf, fl⟩
  · rfl
  · simp only []
    by_cases h1 : consViolated uf1 g.V s t <;>
      by_cases h2 : consViolated uf2 g.V s t <;>
        simp [h1, h2]

/-- Claim C5: a conservation violation at any node other than source
and sink makes the verifier return `is_valid = false` with
`user_flow_value = 0`, whatever the source-outgoing sum would be. -/
theorem c5_conservation_violation_rejected :
    ∀ (g : Graph) (s t : Nat) (uf : UF) (node : Nat)
      (res : Bool × Int × Int),
      node < g.V → node ≠ s → node ≠ t →
      inflowAt uf node ≠ outflowAt uf g.V node →
      verify_maximum_flow g s t uf = some res →
      res.1 = false ∧ res.2.1 = 0 := by
  intro g s t uf node res h1 h2 h3 h4 heq
  have hv : consViolated uf g.V s t = true :=
    (consViolated_iff uf g.V s t).mpr ⟨node, h1, h2, h3, h4⟩
  unfold verify_maximum_flow at heq
  rcases hm : ford_fulkerson_max_flow (copyGraph g) s t with _ | p
  · rw [hm] at heq
    cases heq
  · rw [hm] at heq
    rcases p with ⟨amf, fl⟩
    simp only [if_pos hv, Option.some.injEq] at heq
    subst heq
    exact ⟨rfl, rfl⟩

/-- Witness for claim C5 at a concrete input: on the chain `0 → 1 → 2`
the user flow `3` on `(0, 1)` alone violates conservation at node 1,
and the verifier indeed answers `(false, 0, 3)`. -/
theorem c5_conservation_violation_rejected_witness :
    ((false, 0, 3) : Bool × Int × Int).1 = false ∧
      ((false, 0, 3) : Bool × Int × Int).2.1 = 0 :=
  c5_conservation_violation_rejected gC9 0 2 [(0, [(1, 3)])] 1
    (false, 0, 3) (by decide) (by decide) (by decide) (by decide) (by decide)

/-- Claim C6: on every graph built from an edge list with non-negative
integer capacities and `source ≠ sink`, the engine terminates (the
fueled loop completes: each augmentation pushes a positive integer
bottleneck) and the returned value is at most the sum of the
capacities on the source's outgoing edges. -/
theorem c6_engine_terminates_with_bounded_value :
    ∀ (V : Nat) (edges : List (Nat × Nat × Int)) (s t : Nat),
      (∀ e ∈ edges, 0 ≤ e.2.2) → s ≠ t →
      ∃ v fl, ford_fulkerson_max_flow (buildGraph V edges) s t = some (v, fl) ∧
        v ≤ (((buildGraph V edges).adj s).map
          (fun w => (buildGraph V edges).cap s w)).sum := by
  intro V edges s t hc _
  have hadj := adjClosed_buildGraph V edges
  have hcap := cap_nonneg_buildGraph V edges hc
  have hrow : RowInv (buildGraph V edges) s (fun _ _ => 0) := by
    intro v _
    exact le_max_right _ _
  have hsum : (0 : Int) ≤ sumRowF (buildGraph V edges) s (fun _ _ => 0) := by
    simp [sumRowF]
  have hfuel : (capRowPos (buildGraph V edges) s - 0).toNat <
      loopFuel (buildGraph V edges) s := by
    unfold loopFuel capRowPos
    omega
  obtain ⟨v, fl, hres, hb⟩ :=
    ffLoop_spec hadj (loopFuel (buildGraph V edges) s) (fun _ _ => 0) 0
      hrow hsum hfuel
  refine ⟨v, fl, hres, le_trans hb (le_of_eq ?_)⟩
  unfold capRowPos
  refine congrArg List.sum ?_
  refine List.map_congr_left ?_
  intro w hw
  exact max_eq_left (hcap s w)

/-- Witness for claim C6 at the spec's Scenario 1 chain. -/
theorem c6_engine_terminates_with_bounded_value_witness :
    ∃ v fl,
      ford_fulkerson_max_flow
        (buildGraph 4 [(0, 1, 10), (1, 2, 5), (2, 3, 15)]) 0 3 = some (v, fl) ∧
      v ≤ (((buildGraph 4 [(0, 1, 10), (1, 2, 5), (2, 3, 15)]).adj 0).map
        (fun w => (buildGraph 4 [(0, 1, 10), (1, 2, 5), (2, 3, 15)]).cap 0 w)).sum :=
  c6_engine_terminates_with_bounded_value 4 [(0, 1, 10), (1, 2, 5), (2, 3, 15)]
    0 3 (by decide) (by decide)

/-- Claim C8: starting from the all-zero matrix, every iterate of the
engine's augmenting loop — and hence the flow matrix at termination —
satisfies `flow[v][u] = -flow[u][v]` for every ordered pair. -/
theorem c8_flow_antisymmetry :
    (∀ (g : Graph) (s t : Nat) (n : Nat) (f : Flw),
      iterAug g s t n = some f → Antisym f) ∧
    (∀ (g : Graph) (s t : Nat) (v : Int) (fl : Flw),
      ford_fulkerson_max_flow g s t = some (v, fl) → Antisym fl) := by
  constructor
  · intro g s t n
    induction n with
    | zero =>
      intro f heq
      simp only [iterAug, Option.some.injEq] at heq
      subst heq
      exact antisym_zero
    | succ n ih =>
      intro f heq
      simp only [iterAug] at heq
      rcases hn : iterAug g s t n with _ | f0
      · rw [hn] at heq
        cases heq
      · rw [hn] at heq
        simp only [] at heq
        have hf0 := ih f0 hn
        rcases hi : ffIter g s t f0 with _ | r
        · rw [hi] at heq
          cases heq
        · rw [hi] at heq
          match r with
          | none =>
            simp only [Option.some.injEq] at heq
            subst heq
            exact hf0
          | some (f', pf) =>
            simp only [Option.some.injEq] at heq
            subst heq
            exact antisym_ffIter hi hf0
  · intro g s t v fl heq
    exact antisym_ffLoop (loopFuel g s) (fun _ _ => 0) 0 v fl heq antisym_zero

/-- Claim C10: with `sink = source` the BFS can never report a path
(the source is inserted into the visited set before the search), so on
every built graph the engine returns 0 and, from any starting flow
matrix, leaves it unchanged. -/
theorem c10_source_equals_sink_returns_zero :
    (∀ (V : Nat) (edges : List (Nat × Nat × Int)) (s : Nat) (f0 : Flw)
        (tot : Int) (fuel : Nat),
      ffLoop (buildGraph V edges) s s (fuel + 1) f0 tot = some (tot, f0)) ∧
    (∀ (V : Nat) (edges : List (Nat × Nat × Int)) (s : Nat),
      ford_fulkerson_max_flow (buildGraph V edges) s s =
        some (0, fun _ _ => 0)) := by
  have key : ∀ (V : Nat) (edges : List (Nat × Nat × Int)) (s : Nat) (f0 : Flw),
      ffIter (buildGraph V edges) s s f0 = some none := by
    intro V edges s f0
    obtain ⟨fd, vis, par, hb, _, _, hnoself⟩ :=
      bfs_spec f0 s s (adjClosed_buildGraph V edges)
    have hfd : fd = false := hnoself rfl
    subst hfd
    simp [ffIter, hb]
  have part1 : ∀ (V : Nat) (edges : List (Nat × Nat × Int)) (s : Nat)
      (f0 : Flw) (tot : Int) (fuel : Nat),
      ffLoop (buildGraph V edges) s s (fuel + 1) f0 tot = some (tot, f0) := by
    intro V edges s f0 tot fuel
    simp [ffLoop, key V edges s f0]
  refine ⟨part1, ?_⟩
  intro V edges s
  show ffLoop (buildGraph V edges) s s
    ((((buildGraph V edges).adj s).map
      (fun v => max ((buildGraph V edges).cap s v) 0)).sum.toNat + 1)
    (fun _ _ => 0) 0 = some (0, fun _ _ => 0)
  exact part1 V edges s (fun _ _ => 0) 0 _

end App
